import Mathlib

/-!
Verification development for the kardenwort lemma-extraction core
(src/kardenwort/core/kardenwort.py).

The Python source is shallowly embedded below.  External collaborators
(the regular-expression engine, the spaCy linguistic analyzer and the
german-compound-splitter decomposer) are modelled as oracle parameters:
a RegexEngine supplies the observable behaviour of re.search /
re.fullmatch on a pattern string (Option.none models a re.error
exception raised for a malformed pattern), an Nlp function supplies the
(pos, lemma) annotations of the tokens produced for an isolated word,
and a Decomposer supplies comp_split.dissect / comp_split.merge_fractions,
with Except.error modelling a raised exception.  Strings are modelled
over their character lists; the case predicates and conversions follow
the core Char functions (an ASCII model of the Python str methods).
-/

/-- Lowercase every character of a string (model of str.lower). -/
def strLower (s : String) : String :=
  String.mk (s.data.map Char.toLower)

/-- Model of Python str.capitalize: first character uppercased, the rest
lowercased. -/
def pyCapitalize (s : String) : String :=
  match s.data with
  | [] => s
  | c :: cs => String.mk (Char.toUpper c :: cs.map Char.toLower)

/-- Drop the last character of a string (model of s[:-1]). -/
def strDropLast (s : String) : String :=
  String.mk s.data.dropLast

/-- Drop the first n characters of a string (model of s[n:]). -/
def strDropN (s : String) (n : Nat) : String :=
  String.mk (s.data.drop n)

/-- Test whether the string ends with the character s (model of
str.endswith applied to a one-character suffix). -/
def strEndsWithS (s : String) : Bool :=
  match s.data.getLast? with
  | some c => c == 's'
  | none => false

/-- Boolean test that the first list is an initial segment of the second. -/
def leadsWith : List Char → List Char → Bool
  | [], _ => true
  | _ :: _, [] => false
  | a :: as, b :: bs => a == b && leadsWith as bs

/-- Boolean test that the first list occurs contiguously inside the second. -/
def occursIn (needle : List Char) : List Char → Bool
  | [] => leadsWith needle []
  | c :: rest => leadsWith needle (c :: rest) || occursIn needle rest

/-- Model of the Python membership test needle in hay on strings. -/
def strContains (hay needle : String) : Bool :=
  occursIn needle.data hay.data

/-- Test whether a string starts with the literal regex marker used by the
rule file format. -/
def startsWithRegexMarker (s : String) : Bool :=
  leadsWith "regex:".data s.data

/-- Model of Python str.isupper on an ASCII alphabet: at least one cased
character and no lowercase character. -/
def pyIsUpper (s : String) : Bool :=
  s.data.any (fun c => c.isAlpha) && s.data.all (fun c => !c.isLower)

/-- Test for an uppercase character anywhere after the first character. -/
def hasInternalCaps (s : String) : Bool :=
  (s.data.drop 1).any (fun c => c.isUpper)

/-- Test whether a string contains a hyphen. -/
def hasDash (s : String) : Bool :=
  s.data.contains '-'

/-- Test whether the first character of a string is uppercase (model of
the Python check s[0].isupper() on a non-empty string). -/
def startsUpper (s : String) : Bool :=
  match s.data with
  | [] => false
  | c :: _ => c.isUpper

/-- Drop trailing characters satisfying a predicate. -/
def dropTrailing (p : Char → Bool) (l : List Char) : List Char :=
  (l.reverse.dropWhile p).reverse

/-- Model of Python str.strip(): remove leading and trailing whitespace. -/
def pyStrip (s : String) : String :=
  String.mk (dropTrailing Char.isWhitespace (s.data.dropWhile Char.isWhitespace))

/-- Model of Python str.strip applied to the hyphen character: remove
leading and trailing hyphens. -/
def stripDashes (s : String) : String :=
  String.mk (dropTrailing (fun c => c == '-') (s.data.dropWhile (fun c => c == '-')))

/-- Helper for splitting a character list on hyphens, accumulating the
current (reversed) segment. -/
def splitDashAux : List Char → List Char → List (List Char)
  | [], acc => [acc.reverse]
  | c :: rest, acc =>
    if c == '-' then acc.reverse :: splitDashAux rest []
    else splitDashAux rest (c :: acc)

/-- Model of Python str.split applied to a hyphen separator. -/
def splitDash (s : String) : List String :=
  (splitDashAux s.data []).map String.mk

/-- Observable behaviour of the regular-expression engine on pattern
strings.  A result of none models a re.error exception raised for a
malformed pattern; some b is a successful search or full match with
boolean outcome b. -/
structure RegexEngine where
  searchFn : String → String → Option Bool
  fullmatchFn : String → String → Option Bool

/-- An override rule as stored by the loader: the target lemma together
with the optional raw context condition string (a condition starting
with the regex marker is a regular expression searched inside the
sentence, anything else is a literal substring test). -/
abbrev OverrideRule := String × Option String

/-- Truthiness of a stored context condition, as tested by the Python
code: present and not the empty string. -/
def condTruthy (c : Option String) : Bool :=
  match c with
  | none => false
  | some s => !(s == "")

/-- Evaluation of one context-conditioned rule against the sentence text,
mirroring the body of the loop in find_matching_override_in_context:
a regex condition is searched anywhere in the sentence (an invalid
pattern is reported and skipped, hence non-matching), a literal
condition is a substring test.  Returns the target lemma on a hit. -/
def condHit (E : RegexEngine) (sentence : String) (r : OverrideRule) : Option String :=
  match r.2 with
  | none => none
  | some c =>
    if c == "" then none
    else if startsWithRegexMarker c then
      match E.searchFn (strDropN c 6) sentence with
      | some true => some r.1
      | _ => none
    else if strContains sentence c then some r.1
    else none

/-- Embedding of find_matching_override_in_context (kardenwort.py lines
106..128): feed the context-conditioned entries in source order through
condHit and return the first hit; otherwise fall back to the first
entry without a context condition, if any. -/
def findMatchingOverrideInContext (E : RegexEngine) (rules : Option (List OverrideRule))
    (sentence : String) : Option String :=
  match rules with
  | none => none
  | some rs =>
    if rs.isEmpty then none
    else
      match (rs.filter fun r => condTruthy r.2).findSome? (condHit E sentence) with
      | some t => some t
      | none => Option.map Prod.fst (rs.find? fun r => !condTruthy r.2)

/-- The five override-rule lookup tables built by load_lemma_override_rules,
modelled as association lists (Python dictionaries keyed by lemma, word
or the pair, plus the two ordered regex lists). -/
structure OverrideRules where
  priority1 : List ((String × String) × List OverrideRule)
  priority1Regex : List (String × String × OverrideRule)
  priority2 : List (String × List OverrideRule)
  priority2Regex : List (String × OverrideRule)
  priority3 : List (String × List OverrideRule)

/-- Embedding of get_overridden_lemma_for_word (kardenwort.py lines
130..165). -/
def getOverriddenLemmaForWord (E : RegexEngine) (initialLemma originalWord : String)
    (R : OverrideRules) (sentence : String) : String :=
  match findMatchingOverrideInContext E (R.priority1.lookup (initialLemma, originalWord)) sentence with
  | some t => t
  | none =>
  match R.priority1Regex.findSome? (fun e =>
      if e.1 == initialLemma then
        match E.fullmatchFn e.2.1 originalWord with
        | some true => findMatchingOverrideInContext E (some [e.2.2]) sentence
        | _ => none
      else none) with
  | some t => t
  | none =>
  match findMatchingOverrideInContext E (R.priority2.lookup originalWord) sentence with
  | some t => t
  | none =>
  match R.priority2Regex.findSome? (fun e =>
      match E.fullmatchFn e.1 originalWord with
      | some true => findMatchingOverrideInContext E (some [e.2]) sentence
      | _ => none) with
  | some t => t
  | none =>
  match findMatchingOverrideInContext E (R.priority3.lookup initialLemma) sentence with
  | some t => t
  | none => initialLemma

/-- Embedding of get_overridden_lemma_for_compound_part (kardenwort.py
lines 167..202): identical to the whole-word resolution except that the
two word tiers (priority2 and priority2_regex) are keyed on the compound
part instead of the full original word. -/
def getOverriddenLemmaForCompoundPart (E : RegexEngine) (initialLemma part originalWord : String)
    (R : OverrideRules) (sentence : String) : String :=
  match findMatchingOverrideInContext E (R.priority1.lookup (initialLemma, originalWord)) sentence with
  | some t => t
  | none =>
  match R.priority1Regex.findSome? (fun e =>
      if e.1 == initialLemma then
        match E.fullmatchFn e.2.1 originalWord with
        | some true => findMatchingOverrideInContext E (some [e.2.2]) sentence
        | _ => none
      else none) with
  | some t => t
  | none =>
  match findMatchingOverrideInContext E (R.priority2.lookup part) sentence with
  | some t => t
  | none =>
  match R.priority2Regex.findSome? (fun e =>
      match E.fullmatchFn e.1 part with
      | some true => findMatchingOverrideInContext E (some [e.2]) sentence
      | _ => none) with
  | some t => t
  | none =>
  match findMatchingOverrideInContext E (R.priority3.lookup initialLemma) sentence with
  | some t => t
  | none => initialLemma

/-- Tier 1 of the cascade: exact (initial lemma, original word) lookup. -/
def cascadeTier1 (E : RegexEngine) (initialLemma fullWord : String) (R : OverrideRules)
    (sentence : String) : Option String :=
  findMatchingOverrideInContext E (R.priority1.lookup (initialLemma, fullWord)) sentence

/-- Tier 2 of the cascade: regular expression over the original word,
gated by exact equality of the initial lemma. -/
def cascadeTier2 (E : RegexEngine) (initialLemma fullWord : String) (R : OverrideRules)
    (sentence : String) : Option String :=
  R.priority1Regex.findSome? (fun e =>
    if e.1 == initialLemma then
      match E.fullmatchFn e.2.1 fullWord with
      | some true => findMatchingOverrideInContext E (some [e.2.2]) sentence
      | _ => none
    else none)

/-- Tier 3 of the cascade: exact lookup on the word key (the full word for
whole-token resolution, the compound part for part resolution). -/
def cascadeTier3 (E : RegexEngine) (wordKey : String) (R : OverrideRules)
    (sentence : String) : Option String :=
  findMatchingOverrideInContext E (R.priority2.lookup wordKey) sentence

/-- Tier 4 of the cascade: regular expression over the word key. -/
def cascadeTier4 (E : RegexEngine) (wordKey : String) (R : OverrideRules)
    (sentence : String) : Option String :=
  R.priority2Regex.findSome? (fun e =>
    match E.fullmatchFn e.1 wordKey with
    | some true => findMatchingOverrideInContext E (some [e.2]) sentence
    | _ => none)

/-- Tier 5 of the cascade: exact lookup on the initial lemma alone. -/
def cascadeTier5 (E : RegexEngine) (initialLemma : String) (R : OverrideRules)
    (sentence : String) : Option String :=
  findMatchingOverrideInContext E (R.priority3.lookup initialLemma) sentence

/-- The five-tier override cascade in its fixed order, parameterised by the
word key matched by the two word tiers, with the initial lemma as the
final fallback. -/
def overrideCascade (E : RegexEngine) (initialLemma wordKey fullWord : String)
    (R : OverrideRules) (sentence : String) : String :=
  match cascadeTier1 E initialLemma fullWord R sentence with
  | some t => t
  | none =>
  match cascadeTier2 E initialLemma fullWord R sentence with
  | some t => t
  | none =>
  match cascadeTier3 E wordKey R sentence with
  | some t => t
  | none =>
  match cascadeTier4 E wordKey R sentence with
  | some t => t
  | none =>
  match cascadeTier5 E initialLemma R sentence with
  | some t => t
  | none => initialLemma

/-- The token attributes consumed by the core from the linguistic
analyzer: surface text, supplied lemma, part-of-speech tag, and the
boolean and morphological annotations read by the code. -/
structure Token where
  text : String
  lemmaText : String
  pos : String
  isAlpha : Bool
  likeUrl : Bool
  likeEmail : Bool
  isSentStart : Bool
  morphCase : List String

/-- The configuration read by the extraction code: the command-line
arguments and keyword options, plus the analyzer language and whether a
decomposition automaton is loaded. -/
structure Config where
  lang : String
  deForceNounCapitalization : Bool
  forceProperNounCapitalization : Bool
  deFixGenitive : Bool
  deGcs : Bool
  gcsAutomaton : Bool
  deGcsPosTags : List String
  deGcsOnlyNouns : Bool
  deGcsCombineNounModes : Bool
  deGcsMaskUnknownParts : Bool
  deGcsPreserveCompoundWord : Bool
  deGcsSkipMergeFractions : Bool
  deGcsPartSingularization : String

/-- Oracle for the external compound decomposer: dissect takes the word
and the make_singular, only_nouns and mask_unknown flags; Except.error
models a raised exception. -/
structure Decomposer where
  dissect : String → Bool → Bool → Bool → Except Unit (List String)
  mergeFractions : List String → Except Unit (List String)

/-- Oracle for running the linguistic analyzer on one isolated word: the
(pos, lemma) annotations of the resulting tokens, in order. -/
abbrev Nlp := String → List (String × String)

/-- Embedding of correct_spacy_lemma (kardenwort.py lines 234..246), with
the analyzer language passed explicitly in place of the global. -/
def correctSpacyLemma (lang : String) (dict : List String) (fixGenitive : Bool)
    (tok : Token) : String :=
  if fixGenitive && lang == "de" && (tok.pos == "NOUN" || tok.pos == "PROPN")
      && tok.morphCase.contains "Gen" then
    if strEndsWithS tok.lemmaText && decide (1 < tok.lemmaText.length) then
      if dict.contains (pyCapitalize (strDropLast tok.lemmaText)) then strDropLast tok.lemmaText
      else tok.lemmaText
    else tok.lemmaText
  else tok.lemmaText

/-- Embedding of format_lemma_capitalization (kardenwort.py lines
317..339). -/
def formatLemmaCapitalization (cfg : Config) (tok : Token) (initialLemma : String) : String :=
  if tok.likeUrl || tok.likeEmail then strLower initialLemma
  else if (pyIsUpper tok.text && decide (1 < tok.text.length)) || hasInternalCaps tok.text then
    tok.text
  else if cfg.deForceNounCapitalization && cfg.lang == "de"
      && (tok.pos == "NOUN" || tok.pos == "PROPN") then
    pyCapitalize initialLemma
  else if cfg.forceProperNounCapitalization && tok.pos == "PROPN" then
    pyCapitalize initialLemma
  else if tok.isSentStart && !(tok.pos == "NOUN" || tok.pos == "PROPN") then
    initialLemma
  else initialLemma

/-- Embedding of lemmatize_compound_part (kardenwort.py lines 204..232). -/
def lemmatizeCompoundPart (nlp : Nlp) (dict : List String) (part : String) : String :=
  if part == "" then ""
  else if (pyIsUpper part && decide (1 < part.length)) || hasInternalCaps part then part
  else
    match nlp part with
    | [] => ""
    | (pos, lem) :: _ =>
      if !(pos == "NOUN" || pos == "PROPN") then lem
      else
        if dict.contains (pyCapitalize lem) then pyCapitalize lem
        else if dict.contains (pyCapitalize part) then pyCapitalize part
        else pyCapitalize lem

/-- Embedding of the helper _format_gcs_component_case (kardenwort.py
lines 17..20): strings shorter than two characters are returned
unchanged, otherwise the first character is kept as is and the rest is
lowercased. -/
def formatGcsComponentCase (component : String) : String :=
  if component == "" || decide (component.length < 2) then component
  else
    match component.data with
    | [] => component
    | c :: rest => String.mk (c :: rest.map Char.toLower)

/-- Embedding of the make_singular_flag selection driven by the
de_gcs_part_singularization option. -/
def makeSingularFlag (cfg : Config) (tok : Token) : Bool :=
  if cfg.deGcsPartSingularization == "none" then false
  else if cfg.deGcsPartSingularization == "all" then true
  else tok.pos == "NOUN" || tok.pos == "PROPN"

/-- Embedding of the decomposer invocation region of the automaton branch
(kardenwort.py lines 427..450): the single-mode or combined-mode dissect
calls together with the optional fraction merging, sequenced so that an
exception anywhere discards the whole computation. -/
def computeSplitComponents (D : Decomposer) (cfg : Config) (word : String)
    (makeSingular : Bool) : Except Unit (List String) :=
  if cfg.deGcsCombineNounModes then
    match D.dissect word makeSingular true cfg.deGcsMaskUnknownParts with
    | Except.error e => Except.error e
    | Except.ok d1 =>
      match D.mergeFractions d1 with
      | Except.error e => Except.error e
      | Except.ok m1 =>
        match D.dissect word makeSingular false cfg.deGcsMaskUnknownParts with
        | Except.error e => Except.error e
        | Except.ok d2 =>
          match D.mergeFractions d2 with
          | Except.error e => Except.error e
          | Except.ok m2 =>
            if cfg.deGcsSkipMergeFractions then Except.ok (m1 ++ m2 ++ (d1 ++ d2))
            else
              match D.mergeFractions d1 with
              | Except.error e => Except.error e
              | Except.ok m1b =>
                match D.mergeFractions d2 with
                | Except.error e => Except.error e
                | Except.ok m2b => Except.ok (m1 ++ m2 ++ (m1b ++ m2b))
  else
    match D.dissect word makeSingular cfg.deGcsOnlyNouns cfg.deGcsMaskUnknownParts with
    | Except.error e => Except.error e
    | Except.ok d =>
      if cfg.deGcsSkipMergeFractions then Except.ok d
      else D.mergeFractions d

/-- Determinisation of the Python set() constructor on a list: keep the
first occurrence of every element, in encounter order. -/
def pySetAux : List String → List String → List String
  | [], _ => []
  | x :: xs, seen => if seen.contains x then pySetAux xs seen else x :: pySetAux xs (x :: seen)

/-- Model of iterating over set(components): duplicates removed, first
occurrences kept.  The claims settled below depend only on which
elements appear, not on the iteration order of the Python set. -/
def pySet (l : List String) : List String :=
  pySetAux l []

/-- Embedding of the per-part loop of the hyphen-splitting branch
(kardenwort.py lines 408..415). -/
def hyphenPartLemmas (E : RegexEngine) (nlp : Nlp) (dict : List String) (R : OverrideRules)
    (sentence fullWord : String) (parts : List String) : List String :=
  parts.filterMap fun p0 =>
    let p := pyStrip p0
    if p == "" || decide (p.length ≤ 1) then none
    else
      let processed := getOverriddenLemmaForCompoundPart E
        (lemmatizeCompoundPart nlp dict p) p fullWord R sentence
      if processed == "" then none else some processed

/-- Embedding of the per-component loop of the automaton-splitting branch
(kardenwort.py lines 457..466). -/
def automatonComponentLemmas (E : RegexEngine) (nlp : Nlp) (dict : List String)
    (R : OverrideRules) (sentence fullWord : String) (comps : List String) : List String :=
  (pySet comps).filterMap fun raw =>
    let comp := stripDashes raw
    if comp == "" || decide (comp.length < 3) then none
    else
      let processed := formatGcsComponentCase (getOverriddenLemmaForCompoundPart E
        (lemmatizeCompoundPart nlp dict comp) comp fullWord R sentence)
      if processed == "" then none else some processed

/-- Default lemma of a processed token (kardenwort.py lines 389..395): the
separable-verb fusion for a governing verb with a particle, otherwise
the genitive correction followed by the capitalization policy. -/
def defaultLemmaOf (cfg : Config) (dict : List String) (tok : Token)
    (particle : Option String) : String :=
  match particle with
  | some p => strLower (strLower p ++ tok.lemmaText)
  | none => formatLemmaCapitalization cfg tok (correctSpacyLemma cfg.lang dict cfg.deFixGenitive tok)

/-- The original word form used for override lookups: the surface text,
or for a separable-verb pair the verb surface and particle surface
joined by a space. -/
def sourceWordFormOf (tok : Token) (particle : Option String) : String :=
  match particle with
  | some p => tok.text ++ " " ++ p
  | none => tok.text

/-- Resolved base lemma of a token (kardenwort.py line 396): the default
lemma put through the whole-word override cascade. -/
def baseLemmaOf (E : RegexEngine) (cfg : Config) (R : OverrideRules) (dict : List String)
    (sentence : String) (tok : Token) (particle : Option String) : String :=
  getOverriddenLemmaForWord E (defaultLemmaOf cfg dict tok particle)
    (sourceWordFormOf tok particle) R sentence

/-- Guard of the hyphen-splitting branch (kardenwort.py line 401). -/
def hyphenBranchFires (cfg : Config) (tok : Token) : Bool :=
  cfg.deGcs && hasDash tok.text && !(tok.likeUrl || tok.likeEmail)

/-- Guard of the automaton-splitting branch (kardenwort.py line 417). -/
def autBranchFires (cfg : Config) (tok : Token) : Bool :=
  cfg.deGcs && cfg.gcsAutomaton && cfg.lang == "de" && !(tok.likeUrl || tok.likeEmail)
    && decide (3 < tok.text.length) && cfg.deGcsPosTags.contains tok.pos

/-- Embedding of the candidate-lemma construction for one processed token
(kardenwort.py lines 385..471): the list lemmas_for_current_token as it
stands just before deduplication.  The hyphen branch always marks the
token as split; the automaton branch marks it split only when the
decomposer succeeds with more than one component, and a decomposer
exception falls back to the unsplit case. -/
def lemmasForToken (E : RegexEngine) (nlp : Nlp) (D : Decomposer) (cfg : Config)
    (R : OverrideRules) (dict : List String) (sentence : String) (tok : Token)
    (particle : Option String) : List String :=
  let base := baseLemmaOf E cfg R dict sentence tok particle
  if hyphenBranchFires cfg tok then
    (if cfg.deGcsPreserveCompoundWord then [base] else []) ++
      hyphenPartLemmas E nlp dict R sentence tok.text (splitDash tok.text)
  else if autBranchFires cfg tok then
    match computeSplitComponents D cfg tok.text (makeSingularFlag cfg tok) with
    | Except.error _ => [base]
    | Except.ok comps =>
      if decide (1 < comps.length) then
        (if cfg.deGcsPreserveCompoundWord then [base] else []) ++
          automatonComponentLemmas E nlp dict R sentence tok.text comps
      else [base]
  else [base]

/-- Insert one lemma into the grouped-by-lowercase table: the existing
group with the given key receives the lemma (set semantics, first
occurrence kept), otherwise a new group is appended.  This is the model
of the dictionary-of-sets built by deduplicate_lemmas. -/
def addToGroups : List (String × List String) → String → String → List (String × List String)
  | [], low, lem => [(low, [lem])]
  | (k, vs) :: rest, low, lem =>
    if k = low then (k, if lem ∈ vs then vs else vs ++ [lem]) :: rest
    else (k, vs) :: addToGroups rest low lem

/-- Grouping loop of deduplicate_lemmas (kardenwort.py lines 342..348):
empty candidates are skipped, the rest are grouped by lowercased form
in insertion order. -/
def buildGroupsAux : List (String × List String) → List String → List (String × List String)
  | gs, [] => gs
  | gs, c :: cs => buildGroupsAux (if c = "" then gs else addToGroups gs (strLower c) c) cs

/-- Grouped table of a candidate list, keyed by lowercased form. -/
def buildGroups (cs : List String) : List (String × List String) :=
  buildGroupsAux [] cs

/-- Selection loop body of deduplicate_lemmas (kardenwort.py lines
351..357): prefer a variant whose first character is uppercase,
otherwise take the first variant. -/
def pickRep (vs : List String) : Option String :=
  match vs.find? startsUpper with
  | some v => some v
  | none => vs.head?

/-- Embedding of deduplicate_lemmas (kardenwort.py lines 341..359): one
representative per lowercase-equivalence class, in group insertion
order. -/
def deduplicateLemmas (cs : List String) : List String :=
  (buildGroups cs).filterMap fun g => pickRep g.2

/-- State of the accumulated-vocabulary maps of process_single_text /
process_parallel_text_files: the lemma to shortest-observed-surface-form
map and the lemma to first-occurrence-location map, modelled as
insertion-ordered association lists.  A location is the text-unit index
paired with the unit text. -/
structure VocabState where
  shortestForm : List (String × String)
  sentenceInfo : List (String × (Nat × String))

/-- Replace the value bound to the given key in an association list,
leaving everything else unchanged. -/
def updateAssoc : List (String × String) → String → String → List (String × String)
  | [], _, _ => []
  | (k, v) :: rest, key, nv =>
    if k = key then (k, nv) :: rest
    else (k, v) :: updateAssoc rest key nv

/-- Embedding of the per-lemma merge step (kardenwort.py lines 781..787
and 606..612): a lemma not seen before is inserted with the current
surface form and location; a lemma already present keeps its location,
and its surface form is replaced only by a strictly shorter one.  Empty
lemmas are skipped. -/
def mergeLemma (st : VocabState) (surface : String) (loc : Nat × String)
    (lem : String) : VocabState :=
  if lem = "" then st
  else
    match st.shortestForm.lookup lem with
    | none =>
      { shortestForm := st.shortestForm ++ [(lem, surface)]
        sentenceInfo := st.sentenceInfo ++ [(lem, loc)] }
    | some prev =>
      if surface.length < prev.length then
        { shortestForm := updateAssoc st.shortestForm lem surface
          sentenceInfo := st.sentenceInfo }
      else st

/-- One per-token merge step: fold the token's deduplicated lemmas into
the vocabulary state. -/
def mergeTokenLemmas (st : VocabState) (surface : String) (loc : Nat × String) :
    List String → VocabState
  | [] => st
  | l :: ls => mergeTokenLemmas (mergeLemma st surface loc l) surface loc ls

/-- Concrete regex engine for witnesses: every pattern compiles and never
matches. -/
def trivialEngine : RegexEngine :=
  { searchFn := fun _ _ => some false, fullmatchFn := fun _ _ => some false }

/-- Concrete analyzer oracle for witnesses: one adjective token whose
lemma is the word itself. -/
def adjNlp : Nlp := fun s => [("ADJ", s)]

/-- Concrete decomposer for witnesses: dissection always fails. -/
def failingDecomposer : Decomposer :=
  { dissect := fun _ _ _ _ => Except.error ()
    mergeFractions := fun _ => Except.error () }

/-- Concrete decomposer for witnesses: every word dissects into the two
fragments blau and rot, and fraction merging is the identity. -/
def blauRotDecomposer : Decomposer :=
  { dissect := fun _ _ _ _ => Except.ok ["blau", "rot"]
    mergeFractions := fun l => Except.ok l }

/-- Empty override-rule table. -/
def emptyRules : OverrideRules :=
  { priority1 := [], priority1Regex := [], priority2 := [], priority2Regex := [], priority3 := [] }

/-- Baseline configuration for witnesses: English, no options enabled. -/
def plainConfig : Config :=
  { lang := "en", deForceNounCapitalization := false, forceProperNounCapitalization := false
    deFixGenitive := false, deGcs := false, gcsAutomaton := false, deGcsPosTags := []
    deGcsOnlyNouns := true, deGcsCombineNounModes := false, deGcsMaskUnknownParts := false
    deGcsPreserveCompoundWord := false, deGcsSkipMergeFractions := false
    deGcsPartSingularization := "only-nouns" }

/-- Configuration with hyphen decomposition enabled. -/
def hyphenConfig : Config :=
  { plainConfig with lang := "de", deGcs := true }

/-- Configuration with automaton decomposition enabled for adjectives,
singularization disabled. -/
def automatonConfig : Config :=
  { plainConfig with
      lang := "de"
      deGcs := true
      gcsAutomaton := true
      deGcsPosTags := ["ADJ", "NOUN"]
      deGcsPartSingularization := "none" }

/-- Concrete token whose surface is the hyphenated word a-b: both hyphen
parts have length one and are discarded by the hyphen branch. -/
def tokenAB : Token :=
  { text := "a-b", lemmaText := "a-b", pos := "X", isAlpha := false
    likeUrl := false, likeEmail := false, isSentStart := false, morphCase := [] }

/-- Concrete adjective token for the automaton-splitting scenarios. -/
def tokenBlaurot : Token :=
  { text := "blaurot", lemmaText := "blaurot", pos := "ADJ", isAlpha := true
    likeUrl := false, likeEmail := false, isSentStart := false, morphCase := [] }

/-- Concrete noun token for the unsplit and decomposer-failure scenarios. -/
def tokenHaus : Token :=
  { text := "Haus", lemmaText := "Haus", pos := "NOUN", isAlpha := true
    likeUrl := false, likeEmail := false, isSentStart := false, morphCase := [] }

/-- Concrete genitive noun token with an all-lowercase analyzer lemma. -/
def tokenGenitive : Token :=
  { text := "hauses", lemmaText := "hauses", pos := "NOUN", isAlpha := true
    likeUrl := false, likeEmail := false, isSentStart := false, morphCase := ["Gen"] }

/-- Concrete rule list with two unconditioned entries and no conditioned
entry. -/
def twoUnconditioned : List OverrideRule :=
  [("erste", none), ("zweite", none)]

/-- Keys of the grouped-by-lowercase table. -/
def groupKeys (gs : List (String × List String)) : List String :=
  gs.map Prod.fst

/-- Well-formedness of the grouped-by-lowercase table: every group is
non-empty and holds only non-empty variants whose lowercased form is the
group key. -/
def GroupsOK (gs : List (String × List String)) : Prop :=
  ∀ g ∈ gs, g.2 ≠ [] ∧ ∀ v ∈ g.2, strLower v = g.1 ∧ v ≠ ""

/-- The formatted component keeps its first character unchanged. -/
theorem formatGcs_headEq (x : String) :
    (formatGcsComponentCase x).data.head? = x.data.head? := by
  obtain ⟨l⟩ := x
  unfold formatGcsComponentCase
  split
  · rfl
  · cases l with
    | nil => rfl
    | cons c rest => rfl

/-- On strings of length at least two, the formatted component lowercases
everything after the first character. -/
theorem formatGcs_drop (x : String) (h : 2 ≤ x.length) :
    (formatGcsComponentCase x).data.drop 1 = (x.data.drop 1).map Char.toLower := by
  obtain ⟨l⟩ := x
  have hlen : l.length = String.length ⟨l⟩ := rfl
  unfold formatGcsComponentCase
  have hne : ¬ ((⟨l⟩ : String) == "" || decide (String.length ⟨l⟩ < 2)) = true := by
    simp only [Bool.or_eq_true, beq_iff_eq, decide_eq_true_eq, not_or]
    constructor
    · intro hx
      rw [hx] at h
      simp [String.length] at h
    · omega
  rw [if_neg hne]
  cases l with
  | nil =>
    exfalso
    have h0 : String.length ⟨([] : List Char)⟩ = 0 := rfl
    omega
  | cons c rest => simp

/-- On strings shorter than two characters, the formatted component is the
string itself. -/
theorem formatGcs_short (x : String) (h : x.length < 2) :
    formatGcsComponentCase x = x := by
  unfold formatGcsComponentCase
  rw [if_pos]
  simp [h]

/-- C1 (corrected, amended claim): for every tier's candidate rule list
and sentence text, the context selection algorithm returns the target
lemma of the first context-conditioned entry whose condition matches
(regex conditions by search anywhere in the sentence, literal conditions
by substring test, entries taken in source order); if no conditioned
entry matches, it returns the target lemma of the first unconditioned
entry whenever at least one unconditioned entry exists, and yields no
result only when, in addition, no unconditioned entry exists. -/
theorem claim1_contextSelection (E : RegexEngine) (rs : List OverrideRule) (sentence : String) :
    findMatchingOverrideInContext E (some rs) sentence =
      match (rs.filter fun r => condTruthy r.2).findSome? (condHit E sentence) with
      | some t => some t
      | none => Option.map Prod.fst (rs.find? fun r => !condTruthy r.2) := by
  cases rs with
  | nil => rfl
  | cons a l => rfl

/-- C1 counterexample: a tier list holding two unconditioned entries and
no conditioned entry.  The claim states that with several unconditioned
entries the tier yields no result, but the code returns the first
unconditioned entry's target lemma. -/
theorem claim1_counterexample :
    (twoUnconditioned.filter fun r => condTruthy r.2) = [] ∧
    (twoUnconditioned.filter fun r => !condTruthy r.2).length = 2 ∧
    findMatchingOverrideInContext trivialEngine (some twoUnconditioned) "Satz" = some "erste" :=
  ⟨rfl, rfl, rfl⟩

/-- C3 (confirmed): both resolution operations factor through the single
five-tier cascade evaluated in the fixed order exact-(lemma, word),
regex-word gated by exact lemma equality, exact word key, regex word
key, exact lemma alone, with the initial lemma returned unchanged when
no tier matches; the whole-word operation keys the word tiers on the
full original word and the compound-part operation keys them on the
part, while tiers one, two and five use the full original word and the
initial lemma identically in both. -/
theorem claim3_cascadeStructure (E : RegexEngine) (initialLemma part originalWord : String)
    (R : OverrideRules) (sentence : String) :
    getOverriddenLemmaForWord E initialLemma originalWord R sentence =
      overrideCascade E initialLemma originalWord originalWord R sentence ∧
    getOverriddenLemmaForCompoundPart E initialLemma part originalWord R sentence =
      overrideCascade E initialLemma part originalWord R sentence :=
  ⟨rfl, rfl⟩

/-- C10 (confirmed): when the compound part equals the full original word,
the compound-part resolution operation coincides with the whole-word
resolution operation. -/
theorem claim10_wordPartAgreement (E : RegexEngine) (initialLemma w : String)
    (R : OverrideRules) (sentence : String) :
    getOverriddenLemmaForWord E initialLemma w R sentence =
      getOverriddenLemmaForCompoundPart E initialLemma w w R sentence :=
  rfl

/-- C4 (corrected, amended claim): for a German noun or proper-noun token
carrying a genitive case marker, with genitive correction enabled, when
the analyzer lemma ends in s (length greater than one) and the trimmed
lemma's capitalized form is present in the dictionary, the correction
step substitutes the trimmed lemma itself — with the trailing s removed
but not capitalized; capitalization is applied only inside the
dictionary membership test. -/
theorem claim4_genitiveCorrection (dict : List String) (tok : Token)
    (hpos : tok.pos = "NOUN" ∨ tok.pos = "PROPN")
    (hgen : tok.morphCase.contains "Gen" = true)
    (hends : strEndsWithS tok.lemmaText = true)
    (hlen : 1 < tok.lemmaText.length)
    (hdict : dict.contains (pyCapitalize (strDropLast tok.lemmaText)) = true) :
    correctSpacyLemma "de" dict true tok = strDropLast tok.lemmaText := by
  unfold correctSpacyLemma
  have hgen2 : "Gen" ∈ tok.morphCase := by simpa using hgen
  have hdict2 : pyCapitalize (strDropLast tok.lemmaText) ∈ dict := by simpa using hdict
  rcases hpos with h | h <;>
    simp [h, hgen2, hends, hlen, hdict2]

/-- C4 witness: the amended theorem applied to a concrete genitive token
whose lemma is hauses against a dictionary holding Hause. -/
theorem claim4_witness :
    correctSpacyLemma "de" ["Hause"] true tokenGenitive = strDropLast tokenGenitive.lemmaText :=
  claim4_genitiveCorrection ["Hause"] tokenGenitive (Or.inl rfl) rfl rfl
    (by decide) rfl

/-- C4 counterexample: for the lowercase genitive lemma hauses the code
returns the trimmed lemma hause, not its capitalization Hause as the
claim states. -/
theorem claim4_counterexample :
    correctSpacyLemma "de" ["Hause"] true tokenGenitive = "hause" ∧
    pyCapitalize (strDropLast tokenGenitive.lemmaText) = "Hause" ∧
    ("hause" : String) ≠ "Hause" := by
  refine ⟨rfl, rfl, ?_⟩
  decide

/-- C2 (corrected, amended claim): for every processed token, the
candidate set is exactly the singleton holding the base lemma whenever
the hyphen mechanism does not fire and the automaton mechanism either
does not fire, fails, or yields at most one component.  The original
claim further asserted non-emptiness, and the singleton form, for tokens
split by the hyphen mechanism with at most one surviving part; the code
instead marks every hyphenated token as split, so a hyphenated token
whose parts are all discarded ends with an empty candidate set when
preserve-compound is off (see the counterexample). -/
theorem claim2_candidateSingleton (E : RegexEngine) (nlp : Nlp) (D : Decomposer)
    (cfg : Config) (R : OverrideRules) (dict : List String) (sentence : String)
    (tok : Token) (particle : Option String)
    (h1 : hyphenBranchFires cfg tok = false)
    (h2 : ∀ comps, autBranchFires cfg tok = true →
      computeSplitComponents D cfg tok.text (makeSingularFlag cfg tok) = Except.ok comps →
      comps.length ≤ 1) :
    lemmasForToken E nlp D cfg R dict sentence tok particle =
      [baseLemmaOf E cfg R dict sentence tok particle] := by
  unfold lemmasForToken
  cases haut : autBranchFires cfg tok with
  | false => simp [h1, haut]
  | true =>
    cases hcomp : computeSplitComponents D cfg tok.text (makeSingularFlag cfg tok) with
    | error e => simp [h1, haut, hcomp]
    | ok comps =>
      have hle : ¬ (1 < comps.length) := Nat.not_lt.mpr (h2 comps haut hcomp)
      simp [h1, haut, hcomp, hle]

/-- C2 witness: the amended theorem applied to an unsplit noun token with
decomposition disabled. -/
theorem claim2_witness :
    lemmasForToken trivialEngine adjNlp failingDecomposer plainConfig emptyRules [] "ctx"
        tokenHaus none =
      [baseLemmaOf trivialEngine plainConfig emptyRules [] "ctx" tokenHaus none] :=
  claim2_candidateSingleton trivialEngine adjNlp failingDecomposer plainConfig emptyRules []
    "ctx" tokenHaus none rfl (fun _ h _ => absurd h (by decide))

/-- C2 counterexample: the hyphenated token a-b is processed (it contains
a hyphen), the hyphen mechanism fires and discards both one-character
parts, and with preserve-compound off the candidate set is empty — not
the non-empty singleton of the base lemma asserted by the claim. -/
theorem claim2_counterexample :
    hyphenBranchFires hyphenConfig tokenAB = true ∧
    lemmasForToken trivialEngine adjNlp failingDecomposer hyphenConfig emptyRules [] "ctx"
      tokenAB none = [] :=
  ⟨rfl, rfl⟩

/-- C6 (confirmed): a decomposer failure in the automaton branch is caught
non-fatally — any partial decomposition result is discarded, the token
is treated as unsplit, and the candidate set is exactly the base-lemma
singleton, so no candidate is lost and no partial output remains. -/
theorem claim6_decomposerError (E : RegexEngine) (nlp : Nlp) (D : Decomposer)
    (cfg : Config) (R : OverrideRules) (dict : List String) (sentence : String)
    (tok : Token) (particle : Option String)
    (h1 : hyphenBranchFires cfg tok = false)
    (h2 : autBranchFires cfg tok = true)
    (h3 : computeSplitComponents D cfg tok.text (makeSingularFlag cfg tok) = Except.error ()) :
    lemmasForToken E nlp D cfg R dict sentence tok particle =
      [baseLemmaOf E cfg R dict sentence tok particle] := by
  unfold lemmasForToken
  simp [h1, h2, h3]

/-- C6 witness: the theorem applied to a noun token with a decomposer that
always raises. -/
theorem claim6_witness :
    lemmasForToken trivialEngine adjNlp failingDecomposer automatonConfig emptyRules [] "ctx"
        tokenHaus none =
      [baseLemmaOf trivialEngine automatonConfig emptyRules [] "ctx" tokenHaus none] :=
  claim6_decomposerError trivialEngine adjNlp failingDecomposer automatonConfig emptyRules []
    "ctx" tokenHaus none rfl rfl rfl

/-- C5 (corrected, amended claim): every candidate added by the automaton
component processing is the case-normalized form of the resolved
(override-processed) component lemma, where the normalization keeps the
first character unchanged and lowercases every character after it
(strings shorter than two characters pass through unchanged).  The
original claim asserted that the first character is put in title case
(uppercase); the code never uppercases the first character (see the
counterexample). -/
theorem claim5_componentCase (E : RegexEngine) (nlp : Nlp) (dict : List String)
    (R : OverrideRules) (sentence fullWord : String) (comps : List String) (l : String)
    (h : l ∈ automatonComponentLemmas E nlp dict R sentence fullWord comps) :
    ∃ x, l = formatGcsComponentCase x ∧ l.data.head? = x.data.head? ∧
      (2 ≤ x.length → l.data.drop 1 = (x.data.drop 1).map Char.toLower) ∧
      (x.length < 2 → l = x) := by
  unfold automatonComponentLemmas at h
  obtain ⟨raw, hraw, heq⟩ := List.mem_filterMap.mp h
  simp only at heq
  split at heq
  · exact absurd heq (by simp)
  · split at heq
    · exact absurd heq (by simp)
    · obtain rfl : _ = l := Option.some.inj heq
      exact ⟨_, rfl, formatGcs_headEq _, fun h2 => formatGcs_drop _ h2,
        fun hlt => formatGcs_short _ hlt⟩

/-- C5 witness: the amended theorem applied to the component blau produced
for the token blaurot. -/
theorem claim5_witness :
    ∃ x, ("blau" : String) = formatGcsComponentCase x ∧
      ("blau" : String).data.head? = x.data.head? ∧
      (2 ≤ x.length → ("blau" : String).data.drop 1 = (x.data.drop 1).map Char.toLower) ∧
      (x.length < 2 → ("blau" : String) = x) :=
  claim5_componentCase trivialEngine adjNlp [] emptyRules "ctx" "blaurot" ["blau", "rot"]
    "blau" (by decide)

/-- C5 counterexample: the adjective token blaurot is split by the
automaton into blau and rot; both resolved component lemmas are added
with a lowercase first character, refuting the title-case-first-letter
form asserted by the claim. -/
theorem claim5_counterexample :
    lemmasForToken trivialEngine adjNlp blauRotDecomposer automatonConfig emptyRules [] "ctx"
      tokenBlaurot none = ["blau", "rot"] ∧
    startsUpper "blau" = false :=
  ⟨rfl, rfl⟩

/-- Unfolding equation of addToGroups on a non-empty table. -/
theorem addToGroups_cons_eq (k : String) (vs : List String)
    (rest : List (String × List String)) (low lem : String) :
    addToGroups ((k, vs) :: rest) low lem =
      if k = low then (k, if lem ∈ vs then vs else vs ++ [lem]) :: rest
      else (k, vs) :: addToGroups rest low lem := rfl

/-- Keys of the table after one insertion: unchanged when the key is
already present, otherwise the new key is appended. -/
theorem addToGroups_keys (gs : List (String × List String)) (low lem : String) :
    groupKeys (addToGroups gs low lem) =
      if low ∈ groupKeys gs then groupKeys gs else groupKeys gs ++ [low] := by
  induction gs with
  | nil => simp [addToGroups, groupKeys]
  | cons g rest ih =>
    obtain ⟨k, vs⟩ := g
    by_cases hk : k = low
    · subst hk
      simp [addToGroups, groupKeys]
    · simp only [addToGroups, if_neg hk, groupKeys, List.map_cons] at ih ⊢
      rw [ih]
      by_cases hmem : low ∈ rest.map Prod.fst
      · simp [hmem, Ne.symm hk]
      · simp [hmem, Ne.symm hk]

/-- Insertion preserves the distinctness of the group keys. -/
theorem addToGroups_keys_nodup {gs : List (String × List String)} {low lem : String}
    (h : (groupKeys gs).Nodup) : (groupKeys (addToGroups gs low lem)).Nodup := by
  rw [addToGroups_keys]
  split
  · exact h
  · next hnot => simp [List.nodup_append, h, hnot]

/-- Insertion preserves the well-formedness of the grouped table, provided
the inserted variant is non-empty and lowercases to the key. -/
theorem addToGroups_ok {gs : List (String × List String)} {low lem : String}
    (hok : GroupsOK gs) (hlow : strLower lem = low) (hne : lem ≠ "") :
    GroupsOK (addToGroups gs low lem) := by
  induction gs with
  | nil =>
    intro g hg
    simp only [addToGroups, List.mem_singleton] at hg
    subst hg
    refine ⟨by simp, ?_⟩
    intro v hv
    simp only [List.mem_singleton] at hv
    subst hv
    exact ⟨hlow, hne⟩
  | cons g0 rest ih =>
    obtain ⟨k, vs⟩ := g0
    have hok0 := hok (k, vs) (by simp)
    have hokrest : GroupsOK rest := fun g hg => hok g (by simp [hg])
    by_cases hk : k = low
    · subst hk
      intro g hg
      rw [addToGroups_cons_eq, if_pos rfl] at hg
      rcases List.mem_cons.mp hg with heq | htl
      · subst heq
        by_cases hmem : lem ∈ vs
        · simpa [hmem] using hok0
        · refine ⟨by simp [hmem], ?_⟩
          intro v hv
          have hv2 : v ∈ (if lem ∈ vs then vs else vs ++ [lem]) := hv
          rw [if_neg hmem] at hv2
          rcases List.mem_append.mp hv2 with h | h
          · exact hok0.2 v h
          · simp only [List.mem_singleton] at h
            subst h
            exact ⟨hlow, hne⟩
      · exact hokrest g htl
    · intro g hg
      rw [addToGroups_cons_eq, if_neg hk] at hg
      rcases List.mem_cons.mp hg with heq | htl
      · subst heq
        exact hok0
      · exact ih hokrest g htl

/-- Every existing group survives an insertion with the same key and at
least the same members. -/
theorem addToGroups_extends {gs : List (String × List String)} {low lem : String} :
    ∀ g ∈ gs, ∃ g', g' ∈ addToGroups gs low lem ∧ g'.1 = g.1 ∧ ∀ v ∈ g.2, v ∈ g'.2 := by
  induction gs with
  | nil => intro g hg; cases hg
  | cons g0 rest ih =>
    obtain ⟨k, vs⟩ := g0
    intro g hg
    by_cases hk : k = low
    · subst hk
      rcases List.mem_cons.mp hg with heq | htl
      · subst heq
        by_cases hmem : lem ∈ vs
        · exact ⟨(k, vs), by simp [addToGroups, hmem], rfl, fun v hv => hv⟩
        · exact ⟨(k, vs ++ [lem]), by simp [addToGroups, hmem], rfl,
            fun v hv => List.mem_append.mpr (Or.inl hv)⟩
      · exact ⟨g, by simp [addToGroups, List.mem_cons, htl], rfl, fun v hv => hv⟩
    · rcases List.mem_cons.mp hg with heq | htl
      · exact ⟨g, by simp [addToGroups, if_neg hk, List.mem_cons, heq], rfl, fun v hv => hv⟩
      · obtain ⟨g', hg', hkey, hsub⟩ := ih g htl
        exact ⟨g', by simp [addToGroups, if_neg hk, List.mem_cons, hg'], hkey, hsub⟩

/-- After an insertion, some group carries the inserted key and member. -/
theorem addToGroups_self (gs : List (String × List String)) (low lem : String) :
    ∃ g, g ∈ addToGroups gs low lem ∧ g.1 = low ∧ lem ∈ g.2 := by
  induction gs with
  | nil => exact ⟨(low, [lem]), by simp [addToGroups], rfl, by simp⟩
  | cons g0 rest ih =>
    obtain ⟨k, vs⟩ := g0
    by_cases hk : k = low
    · subst hk
      by_cases hmem : lem ∈ vs
      · exact ⟨(k, vs), by simp [addToGroups, hmem], rfl, hmem⟩
      · exact ⟨(k, vs ++ [lem]), by simp [addToGroups, hmem], rfl, by simp⟩
    · obtain ⟨g, hg, hkey, hmem⟩ := ih
      exact ⟨g, by simp [addToGroups, if_neg hk, List.mem_cons, hg], hkey, hmem⟩

/-- Every member of the table after an insertion is an old member or the
inserted variant. -/
theorem addToGroups_from {gs : List (String × List String)} {low lem : String} :
    ∀ g' ∈ addToGroups gs low lem, ∀ v ∈ g'.2, (∃ g ∈ gs, v ∈ g.2) ∨ v = lem := by
  induction gs with
  | nil =>
    intro g' hg' v hv
    simp only [addToGroups, List.mem_singleton] at hg'
    subst hg'
    simp only [List.mem_singleton] at hv
    exact Or.inr hv
  | cons g0 rest ih =>
    obtain ⟨k, vs⟩ := g0
    intro g' hg' v hv
    by_cases hk : k = low
    · subst hk
      rw [addToGroups_cons_eq, if_pos rfl] at hg'
      rcases List.mem_cons.mp hg' with heq | htl
      · subst heq
        have hv2 : v ∈ (if lem ∈ vs then vs else vs ++ [lem]) := hv
        by_cases hmem : lem ∈ vs
        · rw [if_pos hmem] at hv2
          exact Or.inl ⟨(k, vs), by simp, hv2⟩
        · rw [if_neg hmem] at hv2
          rcases List.mem_append.mp hv2 with h | h
          · exact Or.inl ⟨(k, vs), by simp, h⟩
          · simp only [List.mem_singleton] at h
            exact Or.inr h
      · exact Or.inl ⟨g', by simp [List.mem_cons, htl], hv⟩
    · rw [addToGroups_cons_eq, if_neg hk] at hg'
      rcases List.mem_cons.mp hg' with heq | htl
      · subst heq
        exact Or.inl ⟨(k, vs), by simp, hv⟩
      · rcases ih g' htl v hv with ⟨g, hg, hvg⟩ | h
        · exact Or.inl ⟨g, by simp [List.mem_cons, hg], hvg⟩
        · exact Or.inr h

/-- The grouping loop preserves table well-formedness. -/
theorem buildGroupsAux_ok {gs : List (String × List String)} {cs : List String}
    (hok : GroupsOK gs) : GroupsOK (buildGroupsAux gs cs) := by
  induction cs generalizing gs with
  | nil => exact hok
  | cons c cs ih =>
    by_cases hc : c = ""
    · simpa [buildGroupsAux, hc] using ih hok
    · simpa [buildGroupsAux, hc] using ih (addToGroups_ok hok rfl hc)

/-- The grouping loop preserves the distinctness of the group keys. -/
theorem buildGroupsAux_nodup {gs : List (String × List String)} {cs : List String}
    (h : (groupKeys gs).Nodup) : (groupKeys (buildGroupsAux gs cs)).Nodup := by
  induction cs generalizing gs with
  | nil => exact h
  | cons c cs ih =>
    by_cases hc : c = ""
    · simpa [buildGroupsAux, hc] using ih h
    · simpa [buildGroupsAux, hc] using ih (addToGroups_keys_nodup h)

/-- Every group survives the grouping loop with the same key and at least
the same members. -/
theorem buildGroupsAux_extends {gs : List (String × List String)} {cs : List String} :
    ∀ g ∈ gs, ∃ g', g' ∈ buildGroupsAux gs cs ∧ g'.1 = g.1 ∧ ∀ v ∈ g.2, v ∈ g'.2 := by
  induction cs generalizing gs with
  | nil => exact fun g hg => ⟨g, hg, rfl, fun v hv => hv⟩
  | cons c cs ih =>
    intro g hg
    by_cases hc : c = ""
    · obtain ⟨g', hg', hkey, hsub⟩ := ih g hg
      exact ⟨g', by simpa [buildGroupsAux, hc] using hg', hkey, hsub⟩
    · obtain ⟨g1, hg1, hkey1, hsub1⟩ := @addToGroups_extends gs (strLower c) c g hg
      obtain ⟨g', hg', hkey, hsub⟩ := ih g1 hg1
      exact ⟨g', by simpa [buildGroupsAux, hc] using hg', hkey.trans hkey1,
        fun v hv => hsub v (hsub1 v hv)⟩

/-- Every non-empty candidate ends up in the group keyed by its lowercased
form. -/
theorem buildGroupsAux_present {gs : List (String × List String)} {cs : List String} :
    ∀ c ∈ cs, c ≠ "" → ∃ g, g ∈ buildGroupsAux gs cs ∧ g.1 = strLower c ∧ c ∈ g.2 := by
  induction cs generalizing gs with
  | nil => intro c hc; cases hc
  | cons c0 cs ih =>
    intro c hc hne
    rcases List.mem_cons.mp hc with heq | htl
    · subst heq
      obtain ⟨g1, hg1, hkey1, hmem1⟩ := addToGroups_self gs (strLower c) c
      obtain ⟨g', hg', hkey, hsub⟩ := @buildGroupsAux_extends (addToGroups gs (strLower c) c) cs g1 hg1
      exact ⟨g', by simpa [buildGroupsAux, hne] using hg', hkey.trans hkey1, hsub c hmem1⟩
    · by_cases hc0 : c0 = ""
      · obtain ⟨g', hg', hkey, hmem⟩ := ih c htl hne
        exact ⟨g', by simpa [buildGroupsAux, hc0] using hg', hkey, hmem⟩
      · obtain ⟨g', hg', hkey, hmem⟩ := @ih (addToGroups gs (strLower c0) c0) c htl hne
        exact ⟨g', by simpa [buildGroupsAux, hc0] using hg', hkey, hmem⟩

/-- Every member of the table produced by the grouping loop satisfies any
property enjoyed by the initial members and the non-empty candidates. -/
theorem buildGroupsAux_from {Q : String → Prop} {gs : List (String × List String)}
    {cs : List String} (h0 : ∀ g ∈ gs, ∀ v ∈ g.2, Q v) (h1 : ∀ c ∈ cs, c ≠ "" → Q c) :
    ∀ g ∈ buildGroupsAux gs cs, ∀ v ∈ g.2, Q v := by
  induction cs generalizing gs with
  | nil => exact h0
  | cons c cs ih =>
    by_cases hc : c = ""
    · intro g hg v hv
      refine ih h0 (fun c hcmem hne => h1 c (by simp [hcmem]) hne) g ?_ v hv
      simpa [buildGroupsAux, hc] using hg
    · intro g hg v hv
      have hadd : ∀ g ∈ addToGroups gs (strLower c) c, ∀ v ∈ g.2, Q v := by
        intro g' hg' v' hv'
        rcases addToGroups_from g' hg' v' hv' with ⟨g0, hg0, hvg0⟩ | heq
        · exact h0 g0 hg0 v' hvg0
        · subst heq
          exact h1 _ (by simp) hc
      refine ih hadd (fun c' hcmem hne => h1 c' (by simp [hcmem]) hne) g ?_ v hv
      simpa [buildGroupsAux, hc] using hg

/-- A selected representative is one of the group's variants. -/
theorem pickRep_mem {vs : List String} {r : String} (h : pickRep vs = some r) : r ∈ vs := by
  unfold pickRep at h
  cases hf : vs.find? startsUpper with
  | some v =>
    rw [hf] at h
    cases h
    exact List.mem_of_find?_eq_some hf
  | none =>
    rw [hf] at h
    exact List.mem_of_mem_head? h

/-- A non-empty group always yields a representative. -/
theorem pickRep_isSome {vs : List String} (h : vs ≠ []) : ∃ r, pickRep vs = some r := by
  unfold pickRep
  cases hf : vs.find? startsUpper with
  | some v => exact ⟨v, rfl⟩
  | none =>
    cases vs with
    | nil => exact absurd rfl h
    | cons v vs => exact ⟨v, rfl⟩

/-- When some variant starts uppercase, the selected representative starts
uppercase. -/
theorem pickRep_upper {vs : List String} {v r : String} (hv : v ∈ vs)
    (hup : startsUpper v = true) (h : pickRep vs = some r) : startsUpper r = true := by
  unfold pickRep at h
  cases hf : vs.find? startsUpper with
  | some w =>
    rw [hf] at h
    cases h
    exact List.find?_some hf
  | none =>
    exact absurd hup (by simpa using List.find?_eq_none.mp hf v hv)

/-- On a well-formed table, selecting one representative per group gives a
list whose lowercased forms are exactly the group keys, in order. -/
theorem filterMap_pickRep_lower {gs : List (String × List String)} (hok : GroupsOK gs) :
    ((gs.filterMap fun g => pickRep g.2).map strLower) = groupKeys gs := by
  induction gs with
  | nil => rfl
  | cons g rest ih =>
    have hg := hok g (by simp)
    have hrest : GroupsOK rest := fun g' hg' => hok g' (by simp [hg'])
    obtain ⟨r, hr⟩ := pickRep_isSome hg.1
    have hlow : strLower r = g.1 := (hg.2 r (pickRep_mem hr)).1
    simp [List.filterMap_cons, hr, groupKeys, ih hrest, hlow]

/-- Distinct keys identify groups uniquely. -/
theorem groups_key_unique {gs : List (String × List String)}
    (h : (groupKeys gs).Nodup) {g g' : String × List String}
    (hg : g ∈ gs) (hg' : g' ∈ gs) (hkey : g.1 = g'.1) : g = g' := by
  induction gs with
  | nil => cases hg
  | cons g0 rest ih =>
    have hnd : g0.1 ∉ groupKeys rest ∧ (groupKeys rest).Nodup := by
      simpa [groupKeys] using h
    rcases List.mem_cons.mp hg with heq | htl <;>
      rcases List.mem_cons.mp hg' with heq' | htl'
    · rw [heq, heq']
    · exact absurd (hkey ▸ List.mem_map_of_mem Prod.fst htl') (heq ▸ hnd.1)
    · exact absurd (hkey ▸ List.mem_map_of_mem Prod.fst htl) (heq' ▸ hnd.1)
    · exact ih hnd.2 htl htl'

/-- Inserting a fresh key appends a new singleton group at the end. -/
theorem addToGroups_fresh {gs : List (String × List String)} {low lem : String}
    (h : low ∉ groupKeys gs) : addToGroups gs low lem = gs ++ [(low, [lem])] := by
  induction gs with
  | nil => rfl
  | cons g0 rest ih =>
    obtain ⟨k, vs⟩ := g0
    have hk : ¬ k = low := fun hkk => h (by simp [groupKeys, hkk])
    rw [addToGroups_cons_eq, if_neg hk, List.cons_append]
    rw [ih (fun hmem => h (by simp [groupKeys]; exact Or.inr (by simpa [groupKeys] using hmem)))]

/-- Grouping a list of non-empty candidates with pairwise distinct
lowercased forms, all fresh for the accumulated table, appends one
singleton group per candidate. -/
theorem buildGroupsAux_fresh {rs : List String} {gs : List (String × List String)}
    (hnd : (rs.map strLower).Nodup)
    (hfresh : ∀ r ∈ rs, r ≠ "" ∧ strLower r ∉ groupKeys gs) :
    buildGroupsAux gs rs = gs ++ rs.map fun r => (strLower r, [r]) := by
  induction rs generalizing gs with
  | nil => simp [buildGroupsAux]
  | cons r rs ih =>
    have hr := hfresh r (by simp)
    have hstep : buildGroupsAux gs (r :: rs) =
        buildGroupsAux (addToGroups gs (strLower r) r) rs := by
      simp [buildGroupsAux, hr.1]
    rw [hstep, addToGroups_fresh hr.2]
    have hnd' : (rs.map strLower).Nodup := (List.nodup_cons.mp hnd).2
    have hfresh' : ∀ r' ∈ rs, r' ≠ "" ∧ strLower r' ∉ groupKeys (gs ++ [(strLower r, [r])]) := by
      intro r' hr'
      refine ⟨(hfresh r' (by simp [hr'])).1, ?_⟩
      intro hmem
      rw [groupKeys, List.map_append] at hmem
      rcases List.mem_append.mp hmem with h | h
      · exact (hfresh r' (by simp [hr'])).2 h
      · simp only [List.map_cons, List.map_nil, List.mem_singleton] at h
        exact (List.nodup_cons.mp hnd).1 (h ▸ List.mem_map_of_mem strLower hr')
    rw [ih hnd' hfresh', List.append_assoc]
    rfl

/-- The representative of a singleton group is its unique variant. -/
theorem pickRep_single (r : String) : pickRep [r] = some r := by
  unfold pickRep
  cases h : startsUpper r <;> simp [List.find?, h]

/-- Deduplication leaves a list untouched when its entries are non-empty
and their lowercased forms are pairwise distinct. -/
theorem dedup_normal {rs : List String} (hne : ∀ r ∈ rs, r ≠ "")
    (hnd : (rs.map strLower).Nodup) : deduplicateLemmas rs = rs := by
  unfold deduplicateLemmas buildGroups
  rw [buildGroupsAux_fresh hnd (fun r hr => ⟨hne r hr, by simp [groupKeys]⟩)]
  simp only [List.nil_append]
  induction rs with
  | nil => rfl
  | cons r rs ih =>
    have hne' : ∀ r' ∈ rs, r' ≠ "" := fun r' hr' => hne r' (by simp [hr'])
    have hnd' : (rs.map strLower).Nodup := (List.nodup_cons.mp hnd).2
    simp only [List.map_cons, List.filterMap_cons, pickRep_single]
    rw [ih hne' hnd']

/-- The empty table is well-formed. -/
theorem groupsOK_nil : GroupsOK [] :=
  fun g hg => absurd hg (List.not_mem_nil g)

/-- Every deduplication output is a non-empty entry of the input. -/
theorem dedup_entries {cs : List String} :
    ∀ r ∈ deduplicateLemmas cs, r ∈ cs ∧ r ≠ "" := by
  intro r hr
  obtain ⟨g, hg, hpick⟩ := List.mem_filterMap.mp hr
  exact buildGroupsAux_from (Q := fun v => v ∈ cs ∧ v ≠ "")
    (fun g' hg' => absurd hg' (List.not_mem_nil g'))
    (fun c hc hne => ⟨hc, hne⟩) g hg r (pickRep_mem hpick)

/-- The lowercased forms of the deduplication output are pairwise
distinct: one representative per lowercase class. -/
theorem dedup_lower_nodup (cs : List String) :
    ((deduplicateLemmas cs).map strLower).Nodup := by
  have hok : GroupsOK (buildGroups cs) := buildGroupsAux_ok groupsOK_nil
  have : ((deduplicateLemmas cs).map strLower) = groupKeys (buildGroups cs) :=
    filterMap_pickRep_lower hok
  rw [this]
  exact buildGroupsAux_nodup (by simp [groupKeys])

/-- A string whose first character is uppercase is non-empty. -/
theorem startsUpper_ne_empty {c : String} (h : startsUpper c = true) : c ≠ "" := by
  intro hc
  subst hc
  simp [startsUpper] at h

/-- C7 (confirmed): deduplication groups the candidates by lowercased
form and outputs exactly one representative per class — every output is
an input entry, the outputs' lowercased forms are pairwise distinct,
every non-empty input has a representative of its class, and whenever a
class holds a member with an uppercase first character, the chosen
representative has an uppercase first character; in particular the
candidate set apfel, Apfel collapses to exactly Apfel. -/
theorem claim7_dedupRepresentatives (cs : List String) :
    deduplicateLemmas ["apfel", "Apfel"] = ["Apfel"] ∧
    (∀ r ∈ deduplicateLemmas cs, r ∈ cs ∧ r ≠ "") ∧
    ((deduplicateLemmas cs).map strLower).Nodup ∧
    (∀ c ∈ cs, c ≠ "" → ∃ r ∈ deduplicateLemmas cs, strLower r = strLower c) ∧
    (∀ c ∈ cs, startsUpper c = true → ∀ r ∈ deduplicateLemmas cs,
      strLower r = strLower c → startsUpper r = true) := by
  have hok : GroupsOK (buildGroups cs) := buildGroupsAux_ok groupsOK_nil
  have hnodup : (groupKeys (buildGroups cs)).Nodup :=
    buildGroupsAux_nodup (by simp [groupKeys])
  refine ⟨by decide, dedup_entries, dedup_lower_nodup cs, ?_, ?_⟩
  · intro c hc hne
    obtain ⟨g, hg, hkey, hmem⟩ := @buildGroupsAux_present [] cs c hc hne
    obtain ⟨r, hr⟩ := pickRep_isSome (hok g hg).1
    refine ⟨r, List.mem_filterMap.mpr ⟨g, hg, hr⟩, ?_⟩
    rw [(hok g hg).2 r (pickRep_mem hr) |>.1, hkey]
  · intro c hc hcup r hr hlow
    obtain ⟨g, hg, hpick⟩ := List.mem_filterMap.mp hr
    obtain ⟨gc, hgc, hkeyc, hmemc⟩ :=
      @buildGroupsAux_present [] cs c hc (startsUpper_ne_empty hcup)
    have hgkey : g.1 = gc.1 := by
      rw [hkeyc, ← hlow, (hok g hg).2 r (pickRep_mem hpick) |>.1]
    have := groups_key_unique hnodup hg hgc hgkey
    subst this
    exact pickRep_upper hmemc hcup hpick

/-- C7 witness: the theorem applied to the candidate list apfel, Apfel,
concluding that the representative of the class is capitalized. -/
theorem claim7_witness : startsUpper "Apfel" = true :=
  (claim7_dedupRepresentatives ["apfel", "Apfel"]).2.2.2.2 "Apfel" (by decide) (by decide)
    "Apfel" (by decide) (by decide)

/-- C8 (confirmed): deduplication is idempotent — applying it to its own
output returns that output unchanged. -/
theorem claim8_dedupIdempotent (cs : List String) :
    deduplicateLemmas (deduplicateLemmas cs) = deduplicateLemmas cs :=
  dedup_normal (fun r hr => (dedup_entries r hr).2) (dedup_lower_nodup cs)

/-- A binding found in the front part of an appended association list is
found in the whole list. -/
theorem lookup_append_some {α : Type} {xs : List (String × α)} (ys : List (String × α))
    {k : String} {v : α} (h : xs.lookup k = some v) : (xs ++ ys).lookup k = some v := by
  induction xs with
  | nil => cases h
  | cons p rest ih =>
    obtain ⟨k0, v0⟩ := p
    rw [List.cons_append]
    rw [List.lookup_cons] at h ⊢
    by_cases hk : k = k0
    · subst hk
      simp only [beq_self_eq_true] at h ⊢
      exact h
    · simp only [beq_false_of_ne hk] at h ⊢
      exact ih h

/-- Updating one key leaves the bindings of all other keys unchanged. -/
theorem lookup_updateAssoc_other {xs : List (String × String)} {k key nv : String}
    (hne : k ≠ key) : (updateAssoc xs key nv).lookup k = xs.lookup k := by
  induction xs with
  | nil => rfl
  | cons p rest ih =>
    obtain ⟨k0, v0⟩ := p
    by_cases hk : k0 = key
    · subst hk
      rw [updateAssoc, if_pos rfl, List.lookup_cons, List.lookup_cons]
      simp only [beq_false_of_ne hne]
    · rw [updateAssoc, if_neg hk, List.lookup_cons, List.lookup_cons]
      by_cases hkk : k = k0
      · subst hkk
        simp only [beq_self_eq_true]
      · simp only [beq_false_of_ne hkk]
        exact ih

/-- Updating a bound key rebinds exactly that key. -/
theorem lookup_updateAssoc_self {xs : List (String × String)} {key nv : String} {v : String}
    (h : xs.lookup key = some v) : (updateAssoc xs key nv).lookup key = some nv := by
  induction xs with
  | nil => cases h
  | cons p rest ih =>
    obtain ⟨k0, v0⟩ := p
    by_cases hk : k0 = key
    · subst hk
      rw [updateAssoc, if_pos rfl, List.lookup_cons]
      simp only [beq_self_eq_true]
    · rw [List.lookup_cons] at h
      simp only [beq_false_of_ne (Ne.symm hk)] at h
      rw [updateAssoc, if_neg hk, List.lookup_cons]
      simp only [beq_false_of_ne (Ne.symm hk)]
      exact ih h

/-- One merge step never changes a recorded occurrence location. -/
theorem mergeLemma_info {st : VocabState} {surface : String} {loc : Nat × String}
    {lem : String} {k : String} {v : Nat × String}
    (h : st.sentenceInfo.lookup k = some v) :
    (mergeLemma st surface loc lem).sentenceInfo.lookup k = some v := by
  unfold mergeLemma
  by_cases hlem : lem = ""
  · simpa [hlem] using h
  · rw [if_neg hlem]
    cases hlook : st.shortestForm.lookup lem with
    | none => exact lookup_append_some [(lem, loc)] h
    | some prev =>
      by_cases hshort : surface.length < prev.length
      · simpa [hshort] using h
      · simpa [hshort] using h

/-- One merge step keeps every recorded surface form or replaces it by a
strictly shorter one. -/
theorem mergeLemma_form {st : VocabState} {surface : String} {loc : Nat × String}
    {lem : String} {k : String} {s0 : String}
    (h : st.shortestForm.lookup k = some s0) :
    ∃ s1, (mergeLemma st surface loc lem).shortestForm.lookup k = some s1 ∧
      (s1 = s0 ∨ s1.length < s0.length) := by
  unfold mergeLemma
  by_cases hlem : lem = ""
  · exact ⟨s0, by simpa [hlem] using h, Or.inl rfl⟩
  · rw [if_neg hlem]
    cases hlook : st.shortestForm.lookup lem with
    | none => exact ⟨s0, lookup_append_some [(lem, surface)] h, Or.inl rfl⟩
    | some prev =>
      dsimp only
      by_cases hshort : surface.length < prev.length
      · rw [if_pos hshort]
        by_cases hk : k = lem
        · subst hk
          have : prev = s0 := by rw [h] at hlook; exact (Option.some.inj hlook).symm
          subst this
          exact ⟨surface, lookup_updateAssoc_self h, Or.inr hshort⟩
        · exact ⟨s0, by rw [lookup_updateAssoc_other hk]; exact h, Or.inl rfl⟩
      · exact ⟨s0, by simpa [hshort] using h, Or.inl rfl⟩

/-- C9 (confirmed): across one per-token merge step of the accumulated
vocabulary, every lemma already recorded keeps its first-occurrence
location unchanged, and its recorded surface form either stays the same
or is replaced by a strictly shorter one — the map grows monotonically,
insert-or-update only. -/
theorem claim9_vocabInvariant (st : VocabState) (surface : String) (loc : Nat × String)
    (lemmas : List String) :
    (∀ k v, st.sentenceInfo.lookup k = some v →
      (mergeTokenLemmas st surface loc lemmas).sentenceInfo.lookup k = some v) ∧
    (∀ k s0, st.shortestForm.lookup k = some s0 →
      ∃ s1, (mergeTokenLemmas st surface loc lemmas).shortestForm.lookup k = some s1 ∧
        (s1 = s0 ∨ s1.length < s0.length)) := by
  induction lemmas generalizing st with
  | nil => exact ⟨fun k v h => h, fun k s0 h => ⟨s0, h, Or.inl rfl⟩⟩
  | cons l ls ih =>
    constructor
    · intro k v h
      exact (ih (mergeLemma st surface loc l)).1 k v (mergeLemma_info h)
    · intro k s0 h
      obtain ⟨s1, h1, hrel1⟩ := @mergeLemma_form st surface loc l k s0 h
      obtain ⟨s2, h2, hrel2⟩ := (ih (mergeLemma st surface loc l)).2 k s1 h1
      refine ⟨s2, h2, ?_⟩
      rcases hrel2 with rfl | hlt2
      · exact hrel1
      · rcases hrel1 with rfl | hlt1
        · exact Or.inr hlt2
        · exact Or.inr (Nat.lt_trans hlt2 hlt1)

/-- C9 witness: the invariant applied to a concrete one-entry state merged
with a shorter surface form — the location is kept and the surface form
shrinks. -/
theorem claim9_witness :
    ∃ s1, (mergeTokenLemmas ⟨[("Haus", "Hauses")], [("Haus", (0, "s0"))]⟩ "Haus" (1, "s1")
        ["Haus"]).shortestForm.lookup "Haus" = some s1 ∧
      (s1 = "Hauses" ∨ s1.length < "Hauses".length) :=
  (claim9_vocabInvariant ⟨[("Haus", "Hauses")], [("Haus", (0, "s0"))]⟩ "Haus" (1, "s1")
    ["Haus"]).2 "Haus" "Hauses" rfl
